import Mathlib

/-
Verification of the checksum and hardware-address utilities of
`libpnet` (`src/util.rs`).

Shallow embedding conventions:
* Rust `u8` / `u16` / `u32` values are modelled as `Nat`, with `% 2^w`
  inserted exactly where the Rust code truncates or may wrap
  (`as u16` / `as u32` casts, `u32` accumulator additions).
* Byte buffers (`&[u8]`) are `List Nat`; the byte invariant `b < 256`
  appears as a hypothesis where a theorem needs it.
* A Rust function that can panic (the `assert!` in `sum_be_words`)
  returns `Option`; `none` is the abort.
* `slice::from_raw_parts` + `u16::from_be` in `sum_be_words` reads the
  word at index `i` as the big-endian composition of the bytes at
  offsets `2*i` and `2*i+1`; the embedding reads those bytes directly.
-/

namespace PnetUtil

/-! ## Checksum finalization (`finalize_checksum`, src/util.rs lines 191–196) -/

/-- One iteration of the `while` body: `sum = (sum >> 16) + (sum & 0xFFFF)`. -/
def foldStep (sum : Nat) : Nat :=
  (sum >>> 16) + (sum &&& 0xFFFF)

theorem shiftRight16_eq (n : Nat) : n >>> 16 = n / 0x10000 := by
  rw [Nat.shiftRight_eq_div_pow]

theorem and_FFFF_eq (n : Nat) : n &&& 0xFFFF = n % 0x10000 := by
  have h := Nat.and_pow_two_sub_one_eq_mod n 16
  norm_num at h
  exact h

theorem foldStep_eq (sum : Nat) : foldStep sum = sum / 0x10000 + sum % 0x10000 := by
  rw [foldStep, shiftRight16_eq, and_FFFF_eq]

theorem foldStep_lt (sum : Nat) (h : sum >>> 16 ≠ 0) : foldStep sum < sum := by
  rw [foldStep_eq]
  rw [shiftRight16_eq] at h
  omega

/-- The `while sum >> 16 != 0` loop of `finalize_checksum`, with an explicit
iteration budget.  `foldStep` strictly decreases the accumulator while the
condition holds (`foldStep_lt`), so any `fuel ≥ sum` computes the loop's
fixpoint exactly (`finalize_loop_spec` and `finalize_loop_fixed` below);
the loop itself never runs the budget out. -/
def finalize_loop : Nat → Nat → Nat
  | 0, sum => sum
  | fuel + 1, sum => if sum >>> 16 ≠ 0 then finalize_loop fuel (foldStep sum) else sum

/-- `finalize_checksum(sum: u32) -> u16be`: fold the carries, then `!sum as u16`.
Bitwise NOT on a `u32` value `x < 2^32` is `0xFFFFFFFF - x`; the `as u16`
cast truncates `% 2^16`.  The `% 0x100000000` on entry records that the
Rust parameter is a `u32`; the value itself is a sufficient iteration
budget for the loop. -/
def finalize_checksum (sum : Nat) : Nat :=
  (0xFFFFFFFF - finalize_loop (sum % 0x100000000) (sum % 0x100000000)) % 0x10000

/-! ## Word summation (`sum_be_words`, src/util.rs lines 263–285) -/

/-- The `i`-th big-endian 16-bit word of `data`:
`u16::from_be(wdata[i])` where `wdata` reinterprets the byte buffer,
i.e. `data[2*i] << 8 | data[2*i+1]` (the `* 256` is the `<< 8`). -/
def wordAt (data : List Nat) (i : Nat) : Nat :=
  data.getD (2 * i) 0 * 256 + data.getD (2 * i + 1) 0

/-- A run of either summation loop of `sum_be_words`: the sum of `count`
consecutive big-endian words starting at word index `start`. -/
def sumWords (data : List Nat) (start : Nat) : Nat → Nat
  | 0 => 0
  | count + 1 => wordAt data start + sumWords data (start + 1) count

/-- `sum_be_words(data: &[u8], skipword: usize) -> u32`.
`none` models the `assert!(skipword <= wdata.len())` abort
(`wdata.len() = data.len() / 2`).  The first summand is the
`while i < skipword` loop, the second the `while i < wdata.len()` loop
after `i` jumped over `skipword` (it runs `wdata.len() - (skipword + 1)`
times), the third the odd final byte
(`(data[len-1] as u32) << 8` when `len & 1 != 0`).  The `u32`
accumulator wraps, hence the `% 0x100000000`. -/
def sum_be_words (data : List Nat) (skipword : Nat) : Option Nat :=
  if skipword ≤ data.length / 2 then
    some ((sumWords data 0 skipword
        + sumWords data (skipword + 1) (data.length / 2 - (skipword + 1))
        + (if data.length &&& 1 ≠ 0 then data.getD (data.length - 1) 0 * 256 else 0))
      % 0x100000000)
  else none

/-- `checksum(data, skipword)` (src/util.rs lines 186–189). -/
def checksum (data : List Nat) (skipword : Nat) : Option Nat :=
  match sum_be_words data skipword with
  | some sum => some (finalize_checksum sum)
  | none => none

/-! ## IPv4 / IPv6 pseudo-header checksums (src/util.rs lines 199–259) -/

/-- `std::net::Ipv4Addr`, seen through `octets()`: four octets. -/
structure Ipv4Addr where
  o0 : Nat
  o1 : Nat
  o2 : Nat
  o3 : Nat
deriving DecidableEq

/-- `ipv4_word_sum`:
`((octets[0] as u32) << 8 | octets[1] as u32) + ((octets[2] as u32) << 8 | octets[3] as u32)`. -/
def ipv4_word_sum (ip : Ipv4Addr) : Nat :=
  (ip.o0 <<< 8 ||| ip.o1) + (ip.o2 <<< 8 ||| ip.o3)

/-- `ipv4_checksum(data, skipword, extra_data, source, destination, next_level_protocol)`.
`next_level_protocol` is the `u8` inside `IpNextHeaderProtocol`.
The sequence of `sum += ...` steps on the `u32` accumulator equals the
total modulo `2^32`; `len as u32` is `% 0x100000000`. -/
def ipv4_checksum (data : List Nat) (skipword : Nat) (extra_data : List Nat)
    (source destination : Ipv4Addr) (next_level_protocol : Nat) : Option Nat :=
  match sum_be_words data skipword, sum_be_words extra_data (extra_data.length / 2) with
  | some s1, some s2 =>
      some (finalize_checksum
        ((ipv4_word_sum source + ipv4_word_sum destination + next_level_protocol
          + (data.length + extra_data.length) % 0x100000000 + s1 + s2) % 0x100000000))
  | _, _ => none

/-- `std::net::Ipv6Addr`, seen through `segments()`: eight 16-bit segments. -/
structure Ipv6Addr where
  s0 : Nat
  s1 : Nat
  s2 : Nat
  s3 : Nat
  s4 : Nat
  s5 : Nat
  s6 : Nat
  s7 : Nat
deriving DecidableEq

/-- `ipv6_word_sum`: `ip.segments().iter().map(|x| *x as u32).sum()`. -/
def ipv6_word_sum (ip : Ipv6Addr) : Nat :=
  ip.s0 + ip.s1 + ip.s2 + ip.s3 + ip.s4 + ip.s5 + ip.s6 + ip.s7

/-- `ipv6_checksum(data, skipword, extra_data, source, destination, next_level_protocol)`. -/
def ipv6_checksum (data : List Nat) (skipword : Nat) (extra_data : List Nat)
    (source destination : Ipv6Addr) (next_level_protocol : Nat) : Option Nat :=
  match sum_be_words data skipword, sum_be_words extra_data (extra_data.length / 2) with
  | some s1, some s2 =>
      some (finalize_checksum
        ((ipv6_word_sum source + ipv6_word_sum destination + next_level_protocol
          + (data.length + extra_data.length) % 0x100000000 + s1 + s2) % 0x100000000))
  | _, _ => none

/-! ## MAC addresses (src/util.rs lines 23–97) -/

/-- `pub struct MacAddr(pub u8, pub u8, pub u8, pub u8, pub u8, pub u8)`. -/
structure MacAddr where
  m0 : Nat
  m1 : Nat
  m2 : Nat
  m3 : Nat
  m4 : Nat
  m5 : Nat
deriving DecidableEq

/-- `pub enum ParseMacAddrErr`. -/
inductive ParseMacAddrErr where
  | TooManyComponents
  | TooFewComponents
  | InvalidComponent
deriving DecidableEq

instance exceptDecEq {e a : Type} [DecidableEq e] [DecidableEq a] :
    DecidableEq (Except e a) := fun x y =>
  match x, y with
  | Except.ok u, Except.ok v =>
    if h : u = v then isTrue (by rw [h])
    else isFalse (fun hc => h (Except.ok.inj hc))
  | Except.ok _, Except.error _ => isFalse (fun hc => Except.noConfusion hc)
  | Except.error _, Except.ok _ => isFalse (fun hc => Except.noConfusion hc)
  | Except.error u, Except.error v =>
    if h : u = v then isTrue (by rw [h])
    else isFalse (fun hc => h (Except.error.inj hc))

/-- Value of one hexadecimal digit, as accepted by `u8::from_str_radix(_, 16)`
(`char::to_digit(16)`: `0-9`, `a-f`, `A-F`). -/
def hexVal (c : Char) : Option Nat :=
  if '0' ≤ c ∧ c ≤ '9' then some (c.toNat - '0'.toNat)
  else if 'a' ≤ c ∧ c ≤ 'f' then some (c.toNat - 'a'.toNat + 10)
  else if 'A' ≤ c ∧ c ≤ 'F' then some (c.toNat - 'A'.toNat + 10)
  else none

/-- The digit loop of `u8::from_str_radix(_, 16)`: accumulate
`acc * 16 + digit` with checked `u8` arithmetic, failing as soon as the
accumulator would exceed `u8::MAX = 255`, or on a non-digit. -/
def parseHexDigits : List Char → Nat → Option Nat
  | [], acc => some acc
  | c :: cs, acc =>
    match hexVal c with
    | some d => if acc * 16 + d ≤ 255 then parseHexDigits cs (acc * 16 + d) else none
    | none => none

/-- `u8::from_str_radix(s, 16)`: an optional leading `+` sign followed by
one or more base-16 digits whose value fits in a `u8`; the empty string,
a bare sign, a stray character, and overflow are all errors. -/
def from_str_radix_u8 (s : List Char) : Option Nat :=
  match s with
  | [] => none
  | c :: rest =>
    if c = '+' then (if rest = [] then none else parseHexDigits rest 0)
    else parseHexDigits (c :: rest) 0

/-- Rust's `str::split(':')`: `n` colons yield `n + 1` (possibly empty)
components; the empty string yields one empty component. -/
def splitOnColon : List Char → List (List Char)
  | [] => [[]]
  | c :: rest =>
    if c = ':' then [] :: splitOnColon rest
    else
      match splitOnColon rest with
      | [] => [[c]]
      | p :: ps => (c :: p) :: ps

/-- The `for split in splits` loop of `MacAddr::from_str`: `i` counts
components already stored, `parts` holds them in order.  The `i == 6`
check fires before the component is parsed; the guard
`Ok(b) if split.len() != 0` falls through to `InvalidComponent`. -/
def from_str_go : List (List Char) → Nat → List Nat → Except ParseMacAddrErr (List Nat)
  | [], i, parts =>
    if i = 6 then Except.ok parts else Except.error ParseMacAddrErr.TooFewComponents
  | comp :: rest, i, parts =>
    if i = 6 then Except.error ParseMacAddrErr.TooManyComponents
    else
      match from_str_radix_u8 comp with
      | some b =>
        if comp.length ≠ 0 then from_str_go rest (i + 1) (parts ++ [b])
        else Except.error ParseMacAddrErr.InvalidComponent
      | none => Except.error ParseMacAddrErr.InvalidComponent

/-- `MacAddr::from_str` (src/util.rs lines 76–97). -/
def from_str (s : List Char) : Except ParseMacAddrErr MacAddr :=
  match from_str_go (splitOnColon s) 0 [] with
  | Except.ok parts =>
    Except.ok ⟨parts.getD 0 0, parts.getD 1 0, parts.getD 2 0,
               parts.getD 3 0, parts.getD 4 0, parts.getD 5 0⟩
  | Except.error e => Except.error e

/-- Lowercase hexadecimal digit characters, as produced by `{:02x}`. -/
def hexDigitChar (n : Nat) : Char :=
  "0123456789abcdef".toList.getD n '0'

/-- `{:02x}` applied to a byte value: two lowercase, zero-padded hex digits. -/
def byteHex (b : Nat) : List Char :=
  [hexDigitChar (b / 16), hexDigitChar (b % 16)]

/-- `impl fmt::Display for MacAddr` (src/util.rs lines 41–52):
`"{:02x}:{:02x}:{:02x}:{:02x}:{:02x}:{:02x}"`. -/
def macDisplay (m : MacAddr) : List Char :=
  byteHex m.m0 ++ ':' :: byteHex m.m1 ++ ':' :: byteHex m.m2 ++ ':'
    :: byteHex m.m3 ++ ':' :: byteHex m.m4 ++ ':' :: byteHex m.m5

/-- ASCII uppercasing of a character (used to state case-insensitivity). -/
def upChar (c : Char) : Char :=
  if 'a' ≤ c ∧ c ≤ 'z' then Char.ofNat (c.toNat - 32) else c

/-! ## Spec-side reference definitions

These follow the specification's words rather than the source, and the
theorems below compare the source embedding against them. -/

/-- All entries of the buffer are byte values. -/
def isBytes (data : List Nat) : Prop := ∀ b ∈ data, b < 256

instance (data : List Nat) : Decidable (isBytes data) :=
  inferInstanceAs (Decidable (∀ b ∈ data, b < 256))

/-- The digit part of a component: an optional leading `+` sign is not a
digit. -/
def componentDigits (p : List Char) : List Char :=
  match p with
  | [] => []
  | c :: rest => if c = '+' then rest else c :: rest

/-- Numeric value of a string of hexadecimal digits (most significant
first). -/
def hexListVal (ds : List Char) : Nat :=
  ds.foldl (fun acc c => acc * 16 + (hexVal c).getD 0) 0

/-- Spec-side acceptance of one colon-separated component: nonempty, an
optional leading `+` sign followed by at least one hexadecimal digit
(case-insensitive), with numeric value at most `255`. -/
def validComponent (p : List Char) : Prop :=
  componentDigits p ≠ []
    ∧ (∀ c ∈ componentDigits p, (hexVal c).isSome)
    ∧ hexListVal (componentDigits p) ≤ 255

instance (p : List Char) : Decidable (validComponent p) :=
  inferInstanceAs (Decidable (_ ∧ _ ∧ _))

/-- Spec's word at position `i`: `(bytes[2i] << 8) | bytes[2i+1]`. -/
def refWord (data : List Nat) (i : Nat) : Nat :=
  data.getD (2 * i) 0 <<< 8 ||| data.getD (2 * i + 1) 0

/-- Spec's word summation: the sum over all whole-word positions of the
big-endian words, the word at position `skip` contributing zero
(substituted, not omitted), plus — for odd length — the final unpaired
byte as `byte << 8`, as an unsigned 32-bit value. -/
def refSum (data : List Nat) (skip : Nat) : Nat :=
  (Finset.sum (Finset.range (data.length / 2))
      (fun i => if i = skip then 0 else refWord data i)
    + (if data.length % 2 = 1 then data.getD (data.length - 1) 0 <<< 8 else 0))
    % 0x100000000

/-- Spec's fold: repeatedly add the high 16 bits into the low 16 bits
until the value fits in 16 bits. -/
def fold16 (s : Nat) : Nat :=
  if h : s < 0x10000 then s else fold16 (s / 0x10000 + s % 0x10000)
termination_by s
decreasing_by omega

/-! ## Basic byte/word lemmas -/

theorem getD_lt_256 {data : List Nat} (hb : isBytes data) (j : Nat) :
    data.getD j 0 < 256 := by
  by_cases h : j < data.length
  · rw [List.getD_eq_getElem data 0 h]
    exact hb _ (List.getElem_mem h)
  · rw [List.getD_eq_default data 0 (by omega)]
    omega

theorem shiftLeft8_lor_eq (a b : Nat) (hb : b < 256) :
    a <<< 8 ||| b = a * 256 + b := by
  rw [Nat.shiftLeft_eq]
  rw [show a * 2 ^ 8 = 2 ^ 8 * a by ring, ← Nat.mul_add_lt_is_or hb]
  ring

theorem refWord_eq_wordAt {data : List Nat} (hb : isBytes data) (i : Nat) :
    refWord data i = wordAt data i := by
  rw [refWord, wordAt, shiftLeft8_lor_eq _ _ (getD_lt_256 hb _)]

theorem wordAt_lt {data : List Nat} (hb : isBytes data) (i : Nat) :
    wordAt data i < 0x10000 := by
  have h1 := getD_lt_256 hb (2 * i)
  have h2 := getD_lt_256 hb (2 * i + 1)
  rw [wordAt]
  omega

/-! ## The summation loops compute the masked word sum -/

theorem sumWords_eq_Ico (data : List Nat) (count : Nat) : ∀ start : Nat,
    sumWords data start count
      = Finset.sum (Finset.Ico start (start + count)) (wordAt data) := by
  induction count with
  | zero => intro start; simp [sumWords]
  | succ k ih =>
    intro start
    have hrec : sumWords data start (k + 1)
        = wordAt data start + sumWords data (start + 1) k := rfl
    have hidx : start + 1 + k = start + (k + 1) := by omega
    rw [hrec, ih (start + 1), hidx,
      Finset.sum_eq_sum_Ico_succ_bot (show start < start + (k + 1) by omega) (wordAt data)]

theorem loops_eq_masked (data : List Nat) (skip n : Nat) (hskip : skip ≤ n) :
    sumWords data 0 skip + sumWords data (skip + 1) (n - (skip + 1))
      = Finset.sum (Finset.range n) (fun i => if i = skip then 0 else wordAt data i) := by
  rw [sumWords_eq_Ico, sumWords_eq_Ico, Finset.range_eq_Ico]
  rcases Nat.eq_or_lt_of_le hskip with heq | hlt
  · rw [heq]
    have h0 : n - (n + 1) = 0 := by omega
    rw [h0]
    simp only [Nat.add_zero, Nat.zero_add, Finset.Ico_self, Finset.sum_empty]
    refine Finset.sum_congr rfl (fun i hi => ?_)
    have hne : i ≠ n := (Finset.mem_Ico.mp hi).2.ne
    simp [hne]
  · have h1 : skip + 1 + (n - (skip + 1)) = n := by omega
    rw [h1, Nat.zero_add]
    have hsplit : Finset.sum (Finset.Ico 0 n) (fun i => if i = skip then 0 else wordAt data i)
        = Finset.sum (Finset.Ico 0 skip) (fun i => if i = skip then 0 else wordAt data i)
          + Finset.sum (Finset.Ico skip n) (fun i => if i = skip then 0 else wordAt data i) :=
      (Finset.sum_Ico_consecutive _ (Nat.zero_le skip) (Nat.le_of_lt hlt)).symm
    rw [hsplit,
      Finset.sum_eq_sum_Ico_succ_bot hlt (fun i => if i = skip then 0 else wordAt data i)]
    have e1 : Finset.sum (Finset.Ico 0 skip) (fun i => if i = skip then 0 else wordAt data i)
        = Finset.sum (Finset.Ico 0 skip) (wordAt data) :=
      Finset.sum_congr rfl (fun i hi => by
        have hne : i ≠ skip := (Finset.mem_Ico.mp hi).2.ne
        simp [hne])
    have e2 : Finset.sum (Finset.Ico (skip + 1) n) (fun i => if i = skip then 0 else wordAt data i)
        = Finset.sum (Finset.Ico (skip + 1) n) (wordAt data) :=
      Finset.sum_congr rfl (fun i hi => by
        have hge := (Finset.mem_Ico.mp hi).1
        have hne : i ≠ skip := by omega
        simp [hne])
    rw [e1, e2]
    simp

theorem sum_be_words_eq_refSum {data : List Nat} {skip : Nat}
    (hb : isBytes data) (hskip : skip ≤ data.length / 2) :
    sum_be_words data skip = some (refSum data skip) := by
  have hmask := loops_eq_masked data skip (data.length / 2) hskip
  have hwords : Finset.sum (Finset.range (data.length / 2))
        (fun i => if i = skip then 0 else wordAt data i)
      = Finset.sum (Finset.range (data.length / 2))
        (fun i => if i = skip then 0 else refWord data i) :=
    Finset.sum_congr rfl (fun i _ => by
      by_cases h : i = skip
      · simp [h]
      · simp [h, refWord_eq_wordAt hb])
  have hodd : (if data.length &&& 1 ≠ 0 then data.getD (data.length - 1) 0 * 256 else 0)
      = (if data.length % 2 = 1 then data.getD (data.length - 1) 0 <<< 8 else 0) := by
    have hand : data.length &&& 1 = data.length % 2 := Nat.and_one_is_mod _
    rw [hand, Nat.shiftLeft_eq]
    by_cases h : data.length % 2 = 1
    · rw [if_pos (by omega), if_pos h]
    · rw [if_neg (by omega), if_neg h]
  rw [sum_be_words, if_pos hskip, refSum, hmask, hwords, hodd]

/-- The word sum of all words of a byte buffer, plus the odd byte, is
small: at most `len/2` words of at most `0xFFFF` each. -/
theorem refSum_core_le {data : List Nat} (hb : isBytes data) (skip : Nat) :
    Finset.sum (Finset.range (data.length / 2))
        (fun i => if i = skip then 0 else wordAt data i)
      + (if data.length &&& 1 ≠ 0 then data.getD (data.length - 1) 0 * 256 else 0)
      ≤ data.length / 2 * 0xFFFF + 0xFF00 := by
  have hsum : Finset.sum (Finset.range (data.length / 2))
        (fun i => if i = skip then 0 else wordAt data i)
      ≤ Finset.sum (Finset.range (data.length / 2)) (fun _ => (0xFFFF : Nat)) := by
    refine Finset.sum_le_sum (fun i _ => ?_)
    by_cases h : i = skip
    · simp [h]
    · simp only [if_neg h]
      have := wordAt_lt hb i
      omega
  rw [Finset.sum_const, Finset.card_range, smul_eq_mul] at hsum
  have hodd : (if data.length &&& 1 ≠ 0 then data.getD (data.length - 1) 0 * 256 else 0)
      ≤ 0xFF00 := by
    split
    · have := getD_lt_256 hb (data.length - 1)
      omega
    · omega
  exact Nat.add_le_add hsum hodd

/-! ## Properties of the carry-folding loop -/

theorem shiftRight16_eq_zero_iff (n : Nat) : n >>> 16 = 0 ↔ n < 0x10000 := by
  rw [shiftRight16_eq]
  omega

theorem finalize_loop_fixed (fuel r : Nat) (h : r >>> 16 = 0) :
    finalize_loop fuel r = r := by
  cases fuel with
  | zero => rfl
  | succ f => simp [finalize_loop, h]

/-- With enough fuel, the loop's result does not depend on the fuel, is a
16-bit value, is congruent to the input modulo `0xFFFF` (end-around carry
preserves the one's-complement sum), and is zero only for input zero. -/
theorem finalize_loop_spec : ∀ fuel sum : Nat, sum ≤ fuel →
    finalize_loop fuel sum < 0x10000
    ∧ finalize_loop fuel sum % 0xFFFF = sum % 0xFFFF
    ∧ (finalize_loop fuel sum = 0 ↔ sum = 0) := by
  intro fuel
  induction fuel using Nat.strong_induction_on with
  | _ fuel ih =>
    intro sum hle
    cases fuel with
    | zero =>
      have hz : sum = 0 := by omega
      rw [hz]
      simp [finalize_loop]
    | succ f =>
      by_cases h : sum >>> 16 ≠ 0
      · have hstep : finalize_loop (f + 1) sum = finalize_loop f (foldStep sum) := by
          simp [finalize_loop, h]
        have hlt : foldStep sum < sum := foldStep_lt sum h
        have hrec := ih f (by omega) (foldStep sum) (by omega)
        rw [hstep]
        refine ⟨hrec.1, ?_, ?_⟩
        · rw [hrec.2.1, foldStep_eq]
          omega
        · rw [hrec.2.2, foldStep_eq]
          constructor <;> intro <;> omega
      · push_neg at h
        rw [finalize_loop_fixed _ _ h]
        rw [shiftRight16_eq_zero_iff] at h
        exact ⟨h, rfl, Iff.rfl⟩

theorem fold16_of_lt {s : Nat} (h : s < 0x10000) : fold16 s = s := by
  rw [fold16]
  simp [h]

/-- The fueled loop (with sufficient fuel) computes the spec's `fold16`. -/
theorem finalize_loop_eq_fold16 : ∀ fuel sum : Nat, sum ≤ fuel →
    finalize_loop fuel sum = fold16 sum := by
  intro fuel
  induction fuel using Nat.strong_induction_on with
  | _ fuel ih =>
    intro sum hle
    by_cases h : sum >>> 16 ≠ 0
    · have hbig : ¬ sum < 0x10000 := by
        rw [Ne, shiftRight16_eq_zero_iff] at h
        omega
      cases fuel with
      | zero => omega
      | succ f =>
        have hstep : finalize_loop (f + 1) sum = finalize_loop f (foldStep sum) := by
          simp [finalize_loop, h]
        have hlt : foldStep sum < sum := foldStep_lt sum h
        have hunf : fold16 sum = fold16 (sum / 0x10000 + sum % 0x10000) := by
          conv_lhs => rw [fold16]
          simp [hbig]
        rw [hstep, ih f (by omega) (foldStep sum) (by omega), foldStep_eq, hunf]
    · push_neg at h
      rw [finalize_loop_fixed _ _ h]
      rw [shiftRight16_eq_zero_iff] at h
      exact (fold16_of_lt h).symm

/-- `finalize_checksum` on a `u32` value, written through the loop's
fixpoint: complement of the folded 16-bit value. -/
theorem finalize_checksum_eq {sum : Nat} (hsum : sum < 0x100000000) :
    finalize_checksum sum = 0xFFFF - finalize_loop sum sum := by
  rw [finalize_checksum, Nat.mod_eq_of_lt hsum]
  have hlt := (finalize_loop_spec sum sum (Nat.le_refl sum)).1
  omega

/-! ## The checksum round trip -/

theorem getD_set_ne {l : List Nat} {i j a : Nat} (h : i ≠ j) :
    (l.set i a).getD j 0 = l.getD j 0 := by
  rw [List.getD_eq_getElem?_getD, List.getD_eq_getElem?_getD, List.getElem?_set_ne h]

theorem getD_set_self {l : List Nat} {i a : Nat} (h : i < l.length) :
    (l.set i a).getD i 0 = a := by
  rw [List.getD_eq_getElem?_getD, List.getElem?_set_self h]
  rfl

/-- One's-complement self-verification, on the accumulator: adding the
complemented checksum `finalize_checksum T` back into the accumulator `T`
and finalizing again yields `0` (the folded sum itself is `0xFFFF`). -/
theorem finalize_roundtrip {T : Nat} (hT : T + 0xFFFF < 0x100000000) :
    finalize_checksum (T + finalize_checksum T) = 0 := by
  have hT32 : T < 0x100000000 := by omega
  have hspecT := finalize_loop_spec T T (Nat.le_refl T)
  have hc : finalize_checksum T = 0xFFFF - finalize_loop T T := finalize_checksum_eq hT32
  have hTc32 : T + finalize_checksum T < 0x100000000 := by omega
  have hspec2 := finalize_loop_spec (T + finalize_checksum T) (T + finalize_checksum T)
    (Nat.le_refl _)
  rw [finalize_checksum_eq hTc32]
  obtain ⟨h1, h2, h3⟩ := hspecT
  obtain ⟨g1, g2, g3⟩ := hspec2
  omega

/-- Auxiliary round trip on buffers: writing the computed checksum into
the skipped word and re-summing with the "skip nothing" sentinel yields
an accumulator of exactly `T + c`. -/
theorem sum_be_words_after_write {data : List Nat} {skipword c : Nat}
    (hval : skipword < data.length / 2) (hc16 : c < 0x10000)
    (hsmall : Finset.sum (Finset.range (data.length / 2))
        (fun i => if i = skipword then 0 else wordAt data i)
      + (if data.length &&& 1 ≠ 0 then data.getD (data.length - 1) 0 * 256 else 0)
      + 0xFFFF < 0x100000000) :
    sum_be_words ((data.set (2 * skipword) (c / 256)).set (2 * skipword + 1) (c % 256))
      (data.length / 2)
    = some (Finset.sum (Finset.range (data.length / 2))
          (fun i => if i = skipword then 0 else wordAt data i)
        + (if data.length &&& 1 ≠ 0 then data.getD (data.length - 1) 0 * 256 else 0)
        + c) := by
  set data2 := (data.set (2 * skipword) (c / 256)).set (2 * skipword + 1) (c % 256) with hd2
  have hlen2 : data2.length = data.length := by
    rw [hd2, List.length_set, List.length_set]
  have hidx : 2 * skipword + 1 < data.length := by omega
  have hgetD2 : ∀ j, j ≠ 2 * skipword → j ≠ 2 * skipword + 1 →
      data2.getD j 0 = data.getD j 0 := by
    intro j h1 h2
    rw [hd2, getD_set_ne (by omega), getD_set_ne (by omega)]
  have hword_eq : ∀ i, i ≠ skipword → wordAt data2 i = wordAt data i := by
    intro i hi
    rw [wordAt, wordAt, hgetD2 _ (by omega) (by omega), hgetD2 _ (by omega) (by omega)]
  have hword_skip : wordAt data2 skipword = c := by
    rw [wordAt, hd2]
    rw [getD_set_ne (by omega)]
    rw [getD_set_self (by omega)]
    rw [getD_set_self (by rw [List.length_set]; omega)]
    omega
  have hn2 : data2.length / 2 = data.length / 2 := by rw [hlen2]
  have hle2 : data.length / 2 ≤ data2.length / 2 := by omega
  have hmask2 := loops_eq_masked data2 (data.length / 2) (data2.length / 2) hle2
  have hfull : Finset.sum (Finset.range (data2.length / 2))
      (fun i => if i = data.length / 2 then 0 else wordAt data2 i)
      = Finset.sum (Finset.range (data.length / 2)) (fun i => wordAt data2 i) := by
    rw [hn2]
    refine Finset.sum_congr rfl (fun i hi => ?_)
    have hi2 : i < data.length / 2 := Finset.mem_range.mp hi
    rw [if_neg (by omega)]
  have hsum2 : Finset.sum (Finset.range (data.length / 2)) (fun i => wordAt data2 i)
      = c + Finset.sum (Finset.range (data.length / 2))
          (fun i => if i = skipword then 0 else wordAt data i) := by
    have hsplit : ∀ i, wordAt data2 i
        = (if i = skipword then c else 0)
          + (if i = skipword then 0 else wordAt data2 i) := by
      intro i
      by_cases h : i = skipword
      · rw [if_pos h, if_pos h, h, hword_skip]
        omega
      · rw [if_neg h, if_neg h]
        omega
    rw [Finset.sum_congr rfl (fun i _ => hsplit i), Finset.sum_add_distrib]
    have e3 : Finset.sum (Finset.range (data.length / 2))
        (fun i => if i = skipword then c else 0) = c := by
      rw [Finset.sum_ite_eq' (Finset.range (data.length / 2)) skipword (fun _ => c)]
      rw [if_pos (Finset.mem_range.mpr hval)]
    have e4 : Finset.sum (Finset.range (data.length / 2))
        (fun i => if i = skipword then 0 else wordAt data2 i)
        = Finset.sum (Finset.range (data.length / 2))
          (fun i => if i = skipword then 0 else wordAt data i) := by
      refine Finset.sum_congr rfl (fun i _ => ?_)
      by_cases h : i = skipword
      · rw [if_pos h, if_pos h]
      · rw [if_neg h, if_neg h, hword_eq i h]
    rw [e3, e4]
  have hone : data.length &&& 1 = data.length % 2 := Nat.and_one_is_mod _
  have hodd2 : (if data2.length &&& 1 ≠ 0 then data2.getD (data2.length - 1) 0 * 256 else 0)
      = (if data.length &&& 1 ≠ 0 then data.getD (data.length - 1) 0 * 256 else 0) := by
    rw [hlen2, hone]
    by_cases h : data.length % 2 ≠ 0
    · rw [if_pos h, if_pos h]
      rw [hgetD2 _ (by omega) (by omega)]
    · rw [if_neg h, if_neg h]
  simp only [sum_be_words]
  rw [if_pos hle2, hmask2, hfull, hsum2, hodd2]
  have hmod : c + Finset.sum (Finset.range (data.length / 2))
        (fun i => if i = skipword then 0 else wordAt data i)
      + (if data.length &&& 1 ≠ 0 then data.getD (data.length - 1) 0 * 256 else 0)
      < 0x100000000 := by omega
  rw [Nat.mod_eq_of_lt hmod]
  congr 1
  omega

/-! ## Claim theorems: checksum arithmetic -/

/-- **C1 (counterexample).** For `data = [0x12, 0x34, 0x00, 0x00]` and
`skipword = 1`, the computed checksum is `0xEDCB`; writing its big-endian
bytes at byte offset `2` and re-running `checksum` over the patched buffer
with no excluded word yields `0x0000`, not `0xFFFF` as the claim states. -/
theorem C1_counterexample :
    checksum [0x12, 0x34, 0x00, 0x00] 1 = some 0xEDCB
    ∧ (([0x12, 0x34, 0x00, 0x00].set (2 * 1) (0xEDCB / 256)).set (2 * 1 + 1) (0xEDCB % 256))
        = [0x12, 0x34, 0xED, 0xCB]
    ∧ checksum [0x12, 0x34, 0xED, 0xCB] ([0x12, 0x34, 0xED, 0xCB].length / 2) = some 0
    ∧ (0x0000 : Nat) ≠ 0xFFFF := by
  decide

/-- **C1 (amended).** For every byte buffer `data`, word index
`skipword < data.len()/2`, and buffer short enough that the `u32`
accumulator cannot wrap (`data.len() ≤ 0x10000`): if
`c = checksum(data, skipword)` and `data'` is `data` with the two bytes at
byte offset `2*skipword` replaced by the big-endian bytes of `c`, then
re-running `checksum` over `data'` with no excluded word (skip index
`data'.len()/2`) yields `0x0000` — the complement of the folded sum
`0xFFFF` — because `checksum` returns the complemented fold. -/
theorem C1_roundtrip_amended (data : List Nat) (skipword c : Nat)
    (hb : isBytes data) (hval : skipword < data.length / 2)
    (hlen : data.length ≤ 0x10000)
    (hc : checksum data skipword = some c) :
    checksum ((data.set (2 * skipword) (c / 256)).set (2 * skipword + 1) (c % 256))
      (data.length / 2) = some 0 := by
  have hskip_le : skipword ≤ data.length / 2 := Nat.le_of_lt hval
  have hmask := loops_eq_masked data skipword (data.length / 2) hskip_le
  have hTbound := refSum_core_le hb skipword
  have hhalf : data.length / 2 ≤ 0x8000 := by omega
  have hmul : data.length / 2 * 0xFFFF ≤ 0x8000 * 0xFFFF := Nat.mul_le_mul_right _ hhalf
  have hsmall : Finset.sum (Finset.range (data.length / 2))
        (fun i => if i = skipword then 0 else wordAt data i)
      + (if data.length &&& 1 ≠ 0 then data.getD (data.length - 1) 0 * 256 else 0)
      + 0xFFFF < 0x100000000 := by omega
  have hS : sum_be_words data skipword
      = some (Finset.sum (Finset.range (data.length / 2))
            (fun i => if i = skipword then 0 else wordAt data i)
          + (if data.length &&& 1 ≠ 0 then data.getD (data.length - 1) 0 * 256 else 0)) := by
    simp only [sum_be_words]
    rw [if_pos hskip_le, hmask, Nat.mod_eq_of_lt (by omega)]
  have hcval : c = finalize_checksum
      (Finset.sum (Finset.range (data.length / 2))
          (fun i => if i = skipword then 0 else wordAt data i)
        + (if data.length &&& 1 ≠ 0 then data.getD (data.length - 1) 0 * 256 else 0)) := by
    rw [checksum, hS] at hc
    exact (Option.some.inj hc).symm
  have hc16 : c < 0x10000 := by
    rw [hcval, finalize_checksum]
    exact Nat.mod_lt _ (by omega)
  have h2 := sum_be_words_after_write hval hc16 hsmall
  rw [checksum, h2, hcval]
  exact congrArg some (finalize_roundtrip (by omega))

/-- **C1 witness.** The amended round trip at the counterexample's buffer. -/
theorem C1_roundtrip_witness :
    checksum (([0x12, 0x34, 0x00, 0x00].set (2 * 1) (0xEDCB / 256)).set
        (2 * 1 + 1) (0xEDCB % 256))
      ([0x12, 0x34, 0x00, 0x00].length / 2) = some 0 :=
  C1_roundtrip_amended [0x12, 0x34, 0x00, 0x00] 1 0xEDCB
    (by decide) (by decide) (by decide) (by decide)

/-- **C4.** On every `u32` input, `finalize_checksum` returns the bitwise
complement of the spec's iterated fold `fold16`, truncated to 16 bits
(`!fold16(sum) & 0xFFFF`, with `!x = 0xFFFFFFFF - x` on a `u32` value);
and the fold is idempotent once its result fits in 16 bits. -/
theorem C4_finalize_matches_fold16 (sum : Nat) (hsum : sum < 0x100000000) :
    finalize_checksum sum = (0xFFFFFFFF - fold16 sum) &&& 0xFFFF
    ∧ fold16 (fold16 sum) = fold16 sum := by
  have hloop := finalize_loop_eq_fold16 sum sum (Nat.le_refl _)
  have hspec := finalize_loop_spec sum sum (Nat.le_refl _)
  constructor
  · rw [finalize_checksum, Nat.mod_eq_of_lt hsum, hloop, and_FFFF_eq]
  · rw [← hloop]
    exact fold16_of_lt hspec.1

/-- **C4 witness.** The identity at the largest `u32` value. -/
theorem C4_finalize_witness :
    finalize_checksum 0xFFFFFFFF = (0xFFFFFFFF - fold16 0xFFFFFFFF) &&& 0xFFFF
    ∧ fold16 (fold16 0xFFFFFFFF) = fold16 0xFFFFFFFF :=
  C4_finalize_matches_fold16 0xFFFFFFFF (by decide)

/-- **C5.** For every byte buffer and every skip index
`skipword ≤ data.len()/2`, the word summation succeeds and equals the
reference big-endian sum: all whole words `(data[2i] << 8) | data[2i+1]`
except that position `skipword` contributes zero, plus `data[len-1] << 8`
when the length is odd, as an unsigned 32-bit value. -/
theorem C5_sum_be_words_reference (data : List Nat) (skipword : Nat)
    (hb : isBytes data) (hskip : skipword ≤ data.length / 2) :
    sum_be_words data skipword = some (refSum data skipword) :=
  sum_be_words_eq_refSum hb hskip

/-- **C5 witness.** The reference equality on an odd-length buffer. -/
theorem C5_sum_be_words_witness :
    sum_be_words [0x01, 0x02, 0x03] 1 = some (refSum [0x01, 0x02, 0x03] 1) :=
  C5_sum_be_words_reference [0x01, 0x02, 0x03] 1 (by decide) (by decide)

/-- **C8.** The word summation — and hence `checksum` — aborts exactly when
`skipword` exceeds the whole-word count `data.len()/2`; under the
precondition, every word access `2i`, `2i+1` with `i < data.len()/2`
(covering both loops, whose indices all satisfy this bound) and the
odd-byte access `len-1` are in bounds. -/
theorem C8_abort_iff (data : List Nat) (skipword : Nat) :
    (sum_be_words data skipword = none ↔ data.length / 2 < skipword)
    ∧ (checksum data skipword = none ↔ data.length / 2 < skipword)
    ∧ (∀ i, i < data.length / 2 → 2 * i + 1 < data.length)
    ∧ (data.length &&& 1 ≠ 0 → data.length - 1 < data.length) := by
  have hone : data.length &&& 1 = data.length % 2 := Nat.and_one_is_mod _
  have hiff : sum_be_words data skipword = none ↔ data.length / 2 < skipword := by
    simp only [sum_be_words]
    by_cases h : skipword ≤ data.length / 2
    · rw [if_pos h]
      simp
      omega
    · rw [if_neg h]
      simp
      omega
  have hcs : checksum data skipword = none ↔ sum_be_words data skipword = none := by
    rw [checksum]
    cases hsw : sum_be_words data skipword <;> simp
  refine ⟨hiff, hcs.trans hiff, fun i hi => by omega, fun h => by omega⟩

/-- **C8 witness.** The abort characterization on a 3-byte buffer with an
out-of-range and an in-range skip index. -/
theorem C8_abort_witness :
    sum_be_words [1, 2, 3] 5 = none ∧ checksum [1, 2, 3] 5 = none
    ∧ sum_be_words [1, 2, 3] 1 ≠ none := by
  refine ⟨((C8_abort_iff [1, 2, 3] 5).1).mpr (by decide),
    ((C8_abort_iff [1, 2, 3] 5).2.1).mpr (by decide), ?_⟩
  intro h
  exact absurd (((C8_abort_iff [1, 2, 3] 1).1).mp h) (by decide)

/-- **C10.** One fold step strictly decreases any accumulator of at least
`2^16`; for every `u32` input two fold steps reach a value below `2^16`,
and the folding loop's result is already final after two iterations
(any fuel of at least 2 computes the same value). -/
theorem C10_fold_terminates (sum : Nat) :
    (0x10000 ≤ sum → foldStep sum < sum)
    ∧ (sum < 0x100000000 →
        foldStep (foldStep sum) < 0x10000
        ∧ ∀ fuel, 2 ≤ fuel → finalize_loop fuel sum = finalize_loop 2 sum) := by
  constructor
  · intro h
    refine foldStep_lt sum ?_
    rw [Ne, shiftRight16_eq_zero_iff]
    omega
  · intro h32
    have hstep2 : foldStep (foldStep sum) < 0x10000 := by
      rw [foldStep_eq, foldStep_eq]
      omega
    refine ⟨hstep2, fun fuel hfuel => ?_⟩
    obtain ⟨f, rfl⟩ : ∃ f, fuel = f + 2 := ⟨fuel - 2, by omega⟩
    by_cases h1 : sum >>> 16 ≠ 0
    · have e1 : finalize_loop (f + 2) sum = finalize_loop (f + 1) (foldStep sum) := by
        simp [finalize_loop, h1]
      have e2 : finalize_loop 2 sum = finalize_loop 1 (foldStep sum) := by
        simp [finalize_loop, h1]
      rw [e1, e2]
      by_cases h2 : foldStep sum >>> 16 ≠ 0
      · have e3 : finalize_loop (f + 1) (foldStep sum)
            = finalize_loop f (foldStep (foldStep sum)) := by
          simp [finalize_loop, h2]
        have e4 : finalize_loop 1 (foldStep sum)
            = finalize_loop 0 (foldStep (foldStep sum)) := by
          simp [finalize_loop, h2]
        rw [e3, e4, finalize_loop_fixed f _ (by rw [shiftRight16_eq_zero_iff]; exact hstep2)]
        rfl
      · push_neg at h2
        rw [finalize_loop_fixed _ _ h2, finalize_loop_fixed _ _ h2]
    · push_neg at h1
      rw [finalize_loop_fixed _ _ h1, finalize_loop_fixed _ _ h1]

/-- **C10 witness.** Termination facts at the largest `u32` value. -/
theorem C10_fold_witness :
    foldStep 0xFFFFFFFF < 0xFFFFFFFF
    ∧ foldStep (foldStep 0xFFFFFFFF) < 0x10000
    ∧ finalize_loop 7 0xFFFFFFFF = finalize_loop 2 0xFFFFFFFF :=
  ⟨(C10_fold_terminates 0xFFFFFFFF).1 (by decide),
   ((C10_fold_terminates 0xFFFFFFFF).2 (by decide)).1,
   ((C10_fold_terminates 0xFFFFFFFF).2 (by decide)).2 7 (by decide)⟩

/-- **C6.** `ipv4_checksum` is the finalization of the 32-bit sum of: the
two big-endian 16-bit words of each address's octets, the protocol number,
the combined byte length of `data` and `extra_data` (as `u32`), the word
summation of `data` excluding `skipword`, and the word summation of
`extra_data` with skip index `extra_data.len()/2`, which excludes nothing. -/
theorem C6_ipv4_composition (data extra_data : List Nat) (skipword : Nat)
    (src dst : Ipv4Addr) (proto : Nat)
    (hb : isBytes data) (hbe : isBytes extra_data)
    (hskip : skipword ≤ data.length / 2)
    (hsrc : src.o0 < 256 ∧ src.o1 < 256 ∧ src.o2 < 256 ∧ src.o3 < 256)
    (hdst : dst.o0 < 256 ∧ dst.o1 < 256 ∧ dst.o2 < 256 ∧ dst.o3 < 256) :
    ipv4_checksum data skipword extra_data src dst proto
      = some (finalize_checksum
          (((src.o0 * 256 + src.o1) + (src.o2 * 256 + src.o3)
            + ((dst.o0 * 256 + dst.o1) + (dst.o2 * 256 + dst.o3))
            + proto
            + (data.length + extra_data.length) % 0x100000000
            + refSum data skipword
            + refSum extra_data (extra_data.length / 2)) % 0x100000000)) := by
  rw [ipv4_checksum, sum_be_words_eq_refSum hb hskip,
    sum_be_words_eq_refSum hbe (Nat.le_refl _)]
  refine congrArg some (congrArg finalize_checksum ?_)
  rw [ipv4_word_sum, ipv4_word_sum,
    shiftLeft8_lor_eq _ _ hsrc.2.1, shiftLeft8_lor_eq _ _ hsrc.2.2.2,
    shiftLeft8_lor_eq _ _ hdst.2.1, shiftLeft8_lor_eq _ _ hdst.2.2.2]

/-- **C6 witness.** The composition at a concrete TCP-like instance. -/
theorem C6_ipv4_witness :
    ipv4_checksum [0x45, 0x00, 0x00, 0x14] 1 [0x01, 0x02]
        ⟨192, 168, 0, 1⟩ ⟨192, 168, 0, 2⟩ 6
      = some (finalize_checksum
          (((192 * 256 + 168) + (0 * 256 + 1)
            + ((192 * 256 + 168) + (0 * 256 + 2))
            + 6
            + ([0x45, 0x00, 0x00, 0x14].length + [0x01, 0x02].length) % 0x100000000
            + refSum [0x45, 0x00, 0x00, 0x14] 1
            + refSum [0x01, 0x02] ([0x01, 0x02].length / 2)) % 0x100000000)) :=
  C6_ipv4_composition [0x45, 0x00, 0x00, 0x14] [0x01, 0x02] 1
    ⟨192, 168, 0, 1⟩ ⟨192, 168, 0, 2⟩ 6
    (by decide) (by decide) (by decide) (by decide) (by decide)

/-- **C7.** `ipv6_checksum` composes exactly as the IPv4 variant, except
that the pseudo-header address contribution is the direct sum of the 8
16-bit segments of each address; protocol, length, `data` and `extra_data`
contributions are identical. -/
theorem C7_ipv6_composition (data extra_data : List Nat) (skipword : Nat)
    (src dst : Ipv6Addr) (proto : Nat)
    (hb : isBytes data) (hbe : isBytes extra_data)
    (hskip : skipword ≤ data.length / 2) :
    ipv6_checksum data skipword extra_data src dst proto
      = some (finalize_checksum
          ((src.s0 + src.s1 + src.s2 + src.s3 + src.s4 + src.s5 + src.s6 + src.s7
            + (dst.s0 + dst.s1 + dst.s2 + dst.s3 + dst.s4 + dst.s5 + dst.s6 + dst.s7)
            + proto
            + (data.length + extra_data.length) % 0x100000000
            + refSum data skipword
            + refSum extra_data (extra_data.length / 2)) % 0x100000000)) := by
  rw [ipv6_checksum, sum_be_words_eq_refSum hb hskip,
    sum_be_words_eq_refSum hbe (Nat.le_refl _)]
  refine congrArg some (congrArg finalize_checksum ?_)
  rw [ipv6_word_sum, ipv6_word_sum]

/-- **C7 witness.** The composition at a concrete IPv6 instance. -/
theorem C7_ipv6_witness :
    ipv6_checksum [0x45, 0x00, 0x00, 0x14] 1 [0x01, 0x02]
        ⟨1, 2, 3, 4, 5, 6, 7, 8⟩ ⟨9, 10, 11, 12, 13, 14, 15, 16⟩ 17
      = some (finalize_checksum
          ((1 + 2 + 3 + 4 + 5 + 6 + 7 + 8
            + (9 + 10 + 11 + 12 + 13 + 14 + 15 + 16)
            + 17
            + ([0x45, 0x00, 0x00, 0x14].length + [0x01, 0x02].length) % 0x100000000
            + refSum [0x45, 0x00, 0x00, 0x14] 1
            + refSum [0x01, 0x02] ([0x01, 0x02].length / 2)) % 0x100000000)) :=
  C7_ipv6_composition [0x45, 0x00, 0x00, 0x14] [0x01, 0x02] 1
    ⟨1, 2, 3, 4, 5, 6, 7, 8⟩ ⟨9, 10, 11, 12, 13, 14, 15, 16⟩ 17
    (by decide) (by decide) (by decide)

/-! ## Parser characterization -/

theorem foldl_hex_mono : ∀ (ds : List Char) (acc : Nat),
    acc ≤ ds.foldl (fun a c => a * 16 + (hexVal c).getD 0) acc := by
  intro ds
  induction ds with
  | nil => intro acc; simp
  | cons c cs ih =>
    intro acc
    have h := ih (acc * 16 + (hexVal c).getD 0)
    simp only [List.foldl_cons]
    omega

theorem parseHexDigits_spec : ∀ (ds : List Char) (acc : Nat), acc ≤ 255 →
    parseHexDigits ds acc
      = if (∀ c ∈ ds, (hexVal c).isSome)
            ∧ ds.foldl (fun a c => a * 16 + (hexVal c).getD 0) acc ≤ 255
        then some (ds.foldl (fun a c => a * 16 + (hexVal c).getD 0) acc)
        else none := by
  intro ds
  induction ds with
  | nil =>
    intro acc hacc
    simp [parseHexDigits, hacc]
  | cons c cs ih =>
    intro acc hacc
    cases hc : hexVal c with
    | none => simp [parseHexDigits, hc]
    | some d =>
      by_cases hle : acc * 16 + d ≤ 255
      · simp only [parseHexDigits, hc, if_pos hle]
        rw [ih _ hle]
        simp [List.forall_mem_cons, hc]
      · have hm := foldl_hex_mono cs (acc * 16 + d)
        have hcond : ¬((∀ x ∈ c :: cs, (hexVal x).isSome)
            ∧ (c :: cs).foldl (fun a x => a * 16 + (hexVal x).getD 0) acc ≤ 255) := by
          simp only [List.foldl_cons, List.forall_mem_cons, hc, Option.getD_some]
          intro hall
          omega
        simp only [parseHexDigits, hc, if_neg hle, if_neg hcond]

theorem from_str_radix_spec (p : List Char) :
    from_str_radix_u8 p
      = if validComponent p then some (hexListVal (componentDigits p)) else none := by
  cases p with
  | nil => simp [from_str_radix_u8, validComponent, componentDigits]
  | cons c rest =>
    by_cases hplus : c = '+'
    · subst hplus
      by_cases hrest : rest = []
      · subst hrest
        simp [from_str_radix_u8, validComponent, componentDigits]
      · simp only [from_str_radix_u8, if_pos rfl, if_neg hrest]
        rw [parseHexDigits_spec rest 0 (by omega)]
        simp [validComponent, componentDigits, hexListVal, hrest]
    · simp only [from_str_radix_u8, if_neg hplus]
      rw [parseHexDigits_spec (c :: rest) 0 (by omega)]
      simp [validComponent, componentDigits, hexListVal, hplus]

theorem from_str_go_step {p : List Char} {i : Nat} (parts : List Nat)
    (rest : List (List Char)) (hi : i < 6) (hv : validComponent p) :
    from_str_go (p :: rest) i parts
      = from_str_go rest (i + 1) (parts ++ [hexListVal (componentDigits p)]) := by
  have hpne : p ≠ [] := by
    intro h
    rw [h] at hv
    exact hv.1 rfl
  simp only [from_str_go, if_neg (show ¬ i = 6 by omega)]
  rw [from_str_radix_spec, if_pos hv]
  simp [hpne]

theorem from_str_go_traverse : ∀ (ps rest : List (List Char)) (i : Nat) (parts : List Nat),
    i + ps.length ≤ 6 → (∀ p ∈ ps, validComponent p) →
    from_str_go (ps ++ rest) i parts
      = from_str_go rest (i + ps.length)
          (parts ++ ps.map (fun p => hexListVal (componentDigits p))) := by
  intro ps
  induction ps with
  | nil => intro rest i parts _ _; simp
  | cons p ps ih =>
    intro rest i parts hlen hv
    have hlen' : i + (ps.length + 1) ≤ 6 := by simpa using hlen
    rw [List.cons_append,
      from_str_go_step parts (ps ++ rest) (by omega) (hv p (by simp))]
    rw [ih rest (i + 1) _ (by omega) (fun q hq => hv q (by simp [hq]))]
    have hidx : i + 1 + ps.length = i + (ps.length + 1) := by omega
    rw [hidx]
    simp

theorem from_str_go_ok_iff : ∀ (ps : List (List Char)) (i : Nat) (parts : List Nat), i ≤ 6 →
    ((∃ r, from_str_go ps i parts = Except.ok r)
      ↔ (i + ps.length = 6 ∧ ∀ p ∈ ps, validComponent p)) := by
  intro ps
  induction ps with
  | nil =>
    intro i parts hi
    by_cases h : i = 6
    · simp [from_str_go, h]
    · simp [from_str_go, h]
  | cons p ps ih =>
    intro i parts hi
    by_cases h : i = 6
    · subst h
      simp only [from_str_go, if_pos rfl]
      constructor
      · rintro ⟨r, hr⟩
        cases hr
      · rintro ⟨hlen, _⟩
        simp at hlen
    · have hi6 : i < 6 := by omega
      by_cases hv : validComponent p
      · rw [from_str_go_step parts ps hi6 hv, ih (i + 1) _ (by omega)]
        simp only [List.length_cons, List.forall_mem_cons, hv, true_and]
        constructor
        · rintro ⟨h1, h2⟩
          exact ⟨by omega, h2⟩
        · rintro ⟨h1, h2⟩
          exact ⟨by omega, h2⟩
      · have herr : from_str_go (p :: ps) i parts
            = Except.error ParseMacAddrErr.InvalidComponent := by
          simp only [from_str_go, if_neg h]
          rw [from_str_radix_spec, if_neg hv]
        rw [herr]
        constructor
        · rintro ⟨r, hr⟩
          cases hr
        · rintro ⟨_, hall⟩
          exact absurd (hall p (by simp)) hv

theorem from_str_go_invalid : ∀ (ps : List (List Char)) (i : Nat) (parts : List Nat) (j : Nat),
    j < ps.length → i + j < 6 → ¬ validComponent (ps.getD j []) →
    from_str_go ps i parts = Except.error ParseMacAddrErr.InvalidComponent := by
  intro ps
  induction ps with
  | nil =>
    intro i parts j hj
    simp at hj
  | cons p ps ih =>
    intro i parts j hj hij hv
    have hi6 : i < 6 := by omega
    by_cases hvp : validComponent p
    · have hj0 : j ≠ 0 := by
        intro h
        rw [h] at hv
        exact hv hvp
      rw [from_str_go_step parts ps hi6 hvp]
      have hget : (p :: ps).getD j [] = ps.getD (j - 1) [] := by
        cases j with
        | zero => omega
        | succ k => simp [List.getD]
      rw [hget] at hv
      exact ih (i + 1) _ (j - 1) (by simp at hj; omega) (by omega) hv
    · simp only [from_str_go, if_neg (show ¬ i = 6 by omega)]
      rw [from_str_radix_spec, if_neg hvp]

theorem from_str_ok_iff (s : List Char) :
    (∃ m, from_str s = Except.ok m)
      ↔ ((splitOnColon s).length = 6 ∧ ∀ p ∈ splitOnColon s, validComponent p) := by
  have hgo := from_str_go_ok_iff (splitOnColon s) 0 [] (by omega)
  simp only [Nat.zero_add] at hgo
  rw [← hgo]
  constructor
  · rintro ⟨m, hm⟩
    rw [from_str] at hm
    cases hres : from_str_go (splitOnColon s) 0 [] with
    | ok r => exact ⟨r, rfl⟩
    | error e =>
      rw [hres] at hm
      cases hm
  · rintro ⟨r, hr⟩
    exact ⟨_, by rw [from_str, hr]⟩

theorem from_str_error_eq {s : List Char} {e : ParseMacAddrErr}
    (h : from_str_go (splitOnColon s) 0 [] = Except.error e) :
    from_str s = Except.error e := by
  rw [from_str, h]

theorem splitOnColon_ne_nil : ∀ l : List Char, splitOnColon l ≠ [] := by
  intro l
  induction l with
  | nil => simp [splitOnColon]
  | cons c rest ih =>
    by_cases h : c = ':'
    · simp [splitOnColon, h]
    · simp only [splitOnColon, if_neg h]
      cases hs : splitOnColon rest with
      | nil => simp
      | cons p ps => simp

theorem splitOnColon_append_colon : ∀ t : List Char,
    splitOnColon (t ++ [':']) = splitOnColon t ++ [[]] := by
  intro t
  induction t with
  | nil => rfl
  | cons c rest ih =>
    by_cases h : c = ':'
    · simp [splitOnColon, h, ih]
    · simp only [List.cons_append, splitOnColon, if_neg h, ih]
      cases hs : splitOnColon rest with
      | nil => exact absurd hs (splitOnColon_ne_nil rest)
      | cons p ps =>
        rw [List.append_eq, ih, hs]
        simp

theorem splitOnColon_pair (c1 c2 : Char) (rest : List Char)
    (h1 : c1 ≠ ':') (h2 : c2 ≠ ':') :
    splitOnColon (c1 :: c2 :: ':' :: rest) = [c1, c2] :: splitOnColon rest := by
  simp [splitOnColon, h1, h2]

theorem splitOnColon_pair_end (c1 c2 : Char) (h1 : c1 ≠ ':') (h2 : c2 ≠ ':') :
    splitOnColon [c1, c2] = [[c1, c2]] := by
  simp [splitOnColon, h1, h2]

/-! ## Claim theorems: MAC address parsing -/

/-- **C2 (counterexample).** `"00ff:00:00:00:00:00"` parses successfully to
`MacAddr(0xFF,0,0,0,0,0)` although its first component has 4 characters —
not 1–2 hexadecimal digits — so parsing does not return `InvalidComponent`
there, refuting the claimed equivalence (`u8::from_str_radix` also accepts
a leading `+` and any number of digits while the value fits in a byte). -/
theorem C2_counterexample :
    from_str ("00ff:00:00:00:00:00".toList) = Except.ok ⟨0xFF, 0, 0, 0, 0, 0⟩
    ∧ ((splitOnColon ("00ff:00:00:00:00:00".toList)).getD 0 []).length = 4 := by
  decide

/-- **C2 (amended).** Parsing succeeds exactly when the input has exactly 6
colon-separated components, each accepted by `u8::from_str_radix(_, 16)`:
nonempty, an optional leading `+` sign followed by one or more hexadecimal
digits (case-insensitive), with numeric value at most 255 — so 1–2 hex
digits are always accepted, but so are longer zero-padded strings such as
`00ff` and `+`-signed ones.  Whenever one of the first 6 components is not
of that shape, parsing returns `InvalidComponent`. -/
theorem C2_parse_success_iff (s : List Char) :
    ((∃ m, from_str s = Except.ok m)
      ↔ ((splitOnColon s).length = 6 ∧ ∀ p ∈ splitOnColon s, validComponent p))
    ∧ (∀ j, j < (splitOnColon s).length → j < 6 →
        ¬ validComponent ((splitOnColon s).getD j []) →
        from_str s = Except.error ParseMacAddrErr.InvalidComponent) := by
  refine ⟨from_str_ok_iff s, fun j hj hj6 hv => ?_⟩
  exact from_str_error_eq (from_str_go_invalid (splitOnColon s) 0 [] j hj (by omega) hv)

/-- **C2 witness.** The characterization at a concrete accepted input and a
concrete input with an invalid third component. -/
theorem C2_parse_witness :
    (∃ m, from_str ("12:34:56:78:90:ab".toList) = Except.ok m)
    ∧ from_str ("12:34:5x:78:90:ab".toList)
        = Except.error ParseMacAddrErr.InvalidComponent := by
  constructor
  · exact (C2_parse_success_iff ("12:34:56:78:90:ab".toList)).1.mpr (by decide)
  · exact (C2_parse_success_iff ("12:34:5x:78:90:ab".toList)).2 2
      (by decide) (by decide) (by decide)

/-- **C3 (counterexample).** For `"aa:bb:cc:dd:ee:ff:"` — an input ending in
`:` whose first 6 components are valid — parsing returns
`TooManyComponents` (the trailing empty string is a 7th component), not
`InvalidComponent` as the claim states. -/
theorem C3_counterexample :
    from_str ("aa:bb:cc:dd:ee:ff:".toList)
        = Except.error ParseMacAddrErr.TooManyComponents
    ∧ ParseMacAddrErr.TooManyComponents ≠ ParseMacAddrErr.InvalidComponent := by
  decide

/-- **C3 (amended).** Error priority: an input ending in `:` with exactly
six components — the first five valid, the sixth being the trailing empty
one — fails with `InvalidComponent`, not `TooFewComponents`; and an input
whose first 6 components are valid and which contains a 7th component
fails with `TooManyComponents` as soon as the 7th component is seen, even
if that component or a later one would itself be invalid. -/
theorem C3_error_priority :
    (∀ (t p0 p1 p2 p3 p4 : List Char),
      splitOnColon t = [p0, p1, p2, p3, p4] →
      validComponent p0 → validComponent p1 → validComponent p2 →
      validComponent p3 → validComponent p4 →
      from_str (t ++ [':']) = Except.error ParseMacAddrErr.InvalidComponent)
    ∧ (∀ (s : List Char) (p0 p1 p2 p3 p4 p5 q : List Char)
        (rest : List (List Char)),
      splitOnColon s = [p0, p1, p2, p3, p4, p5] ++ q :: rest →
      validComponent p0 → validComponent p1 → validComponent p2 →
      validComponent p3 → validComponent p4 → validComponent p5 →
      from_str s = Except.error ParseMacAddrErr.TooManyComponents) := by
  constructor
  · intro t p0 p1 p2 p3 p4 hsplit h0 h1 h2 h3 h4
    refine from_str_error_eq ?_
    rw [splitOnColon_append_colon, hsplit]
    have htrav := from_str_go_traverse [p0, p1, p2, p3, p4] [[]] 0 []
      (by simp)
      (by
        intro p hp
        simp at hp
        rcases hp with rfl | rfl | rfl | rfl | rfl <;> assumption)
    rw [htrav]
    simp [from_str_go, from_str_radix_u8]
  · intro s p0 p1 p2 p3 p4 p5 q rest hsplit h0 h1 h2 h3 h4 h5
    refine from_str_error_eq ?_
    rw [hsplit]
    have htrav := from_str_go_traverse [p0, p1, p2, p3, p4, p5] (q :: rest) 0 []
      (by simp)
      (by
        intro p hp
        simp at hp
        rcases hp with rfl | rfl | rfl | rfl | rfl | rfl <;> assumption)
    rw [htrav]
    simp [from_str_go]

/-- **C3 witness.** The two priority rules at concrete inputs: five valid
components plus a trailing colon, and six valid components followed by a
7th (with an invalid 8th). -/
theorem C3_error_witness :
    from_str ("aa:bb:cc:dd:ee".toList ++ [':'])
        = Except.error ParseMacAddrErr.InvalidComponent
    ∧ from_str ("11:22:33:44:55:66:77:zz".toList)
        = Except.error ParseMacAddrErr.TooManyComponents := by
  constructor
  · exact C3_error_priority.1 ("aa:bb:cc:dd:ee".toList)
      ("aa".toList) ("bb".toList) ("cc".toList) ("dd".toList) ("ee".toList)
      (by decide) (by decide) (by decide) (by decide) (by decide) (by decide)
  · exact C3_error_priority.2 ("11:22:33:44:55:66:77:zz".toList)
      ("11".toList) ("22".toList) ("33".toList) ("44".toList) ("55".toList)
      ("66".toList) ("77".toList) ["zz".toList]
      (by decide) (by decide) (by decide) (by decide) (by decide) (by decide)
      (by decide)

/-! ## Display round trip -/

theorem hexDigitChar_spec : ∀ n : Nat, n < 16 →
    hexVal (hexDigitChar n) = some n
    ∧ hexDigitChar n ≠ ':' ∧ hexDigitChar n ≠ '+'
    ∧ hexVal (upChar (hexDigitChar n)) = some n
    ∧ upChar (hexDigitChar n) ≠ ':' ∧ upChar (hexDigitChar n) ≠ '+' := by
  intro n h
  interval_cases n <;> decide

theorem upChar_colon : upChar ':' = ':' := by decide

theorem validComponent_pair {c1 c2 : Char} {a b : Nat}
    (hp : c1 ≠ '+') (ha : hexVal c1 = some a) (hb : hexVal c2 = some b)
    (ha16 : a < 16) (hb16 : b < 16) :
    validComponent [c1, c2] ∧ hexListVal (componentDigits [c1, c2]) = 16 * a + b := by
  have hcd : componentDigits [c1, c2] = [c1, c2] := by
    simp [componentDigits, hp]
  have hval : hexListVal [c1, c2] = 16 * a + b := by
    simp [hexListVal, ha, hb]
    omega
  refine ⟨⟨by simp [hcd], ?_, ?_⟩, by rw [hcd, hval]⟩
  · rw [hcd]
    intro c hc
    rcases (by simpa using hc : c = c1 ∨ c = c2) with rfl | rfl
    · simp [ha]
    · simp [hb]
  · rw [hcd, hval]
    omega

theorem from_str_six_pairs
    (a0 b0 a1 b1 a2 b2 a3 b3 a4 b4 a5 b5 : Char)
    (v0 w0 v1 w1 v2 w2 v3 w3 v4 w4 v5 w5 : Nat)
    (k0 : a0 ≠ ':' ∧ b0 ≠ ':' ∧ a0 ≠ '+' ∧ hexVal a0 = some v0 ∧ hexVal b0 = some w0
      ∧ v0 < 16 ∧ w0 < 16)
    (k1 : a1 ≠ ':' ∧ b1 ≠ ':' ∧ a1 ≠ '+' ∧ hexVal a1 = some v1 ∧ hexVal b1 = some w1
      ∧ v1 < 16 ∧ w1 < 16)
    (k2 : a2 ≠ ':' ∧ b2 ≠ ':' ∧ a2 ≠ '+' ∧ hexVal a2 = some v2 ∧ hexVal b2 = some w2
      ∧ v2 < 16 ∧ w2 < 16)
    (k3 : a3 ≠ ':' ∧ b3 ≠ ':' ∧ a3 ≠ '+' ∧ hexVal a3 = some v3 ∧ hexVal b3 = some w3
      ∧ v3 < 16 ∧ w3 < 16)
    (k4 : a4 ≠ ':' ∧ b4 ≠ ':' ∧ a4 ≠ '+' ∧ hexVal a4 = some v4 ∧ hexVal b4 = some w4
      ∧ v4 < 16 ∧ w4 < 16)
    (k5 : a5 ≠ ':' ∧ b5 ≠ ':' ∧ a5 ≠ '+' ∧ hexVal a5 = some v5 ∧ hexVal b5 = some w5
      ∧ v5 < 16 ∧ w5 < 16) :
    from_str [a0, b0, ':', a1, b1, ':', a2, b2, ':', a3, b3, ':', a4, b4, ':', a5, b5]
      = Except.ok ⟨16 * v0 + w0, 16 * v1 + w1, 16 * v2 + w2,
          16 * v3 + w3, 16 * v4 + w4, 16 * v5 + w5⟩ := by
  obtain ⟨c0, d0, p0, x0, y0, u0, z0⟩ := k0
  obtain ⟨c1, d1, p1, x1, y1, u1, z1⟩ := k1
  obtain ⟨c2, d2, p2, x2, y2, u2, z2⟩ := k2
  obtain ⟨c3, d3, p3, x3, y3, u3, z3⟩ := k3
  obtain ⟨c4, d4, p4, x4, y4, u4, z4⟩ := k4
  obtain ⟨c5, d5, p5, x5, y5, u5, z5⟩ := k5
  have q0 := validComponent_pair p0 x0 y0 u0 z0
  have q1 := validComponent_pair p1 x1 y1 u1 z1
  have q2 := validComponent_pair p2 x2 y2 u2 z2
  have q3 := validComponent_pair p3 x3 y3 u3 z3
  have q4 := validComponent_pair p4 x4 y4 u4 z4
  have q5 := validComponent_pair p5 x5 y5 u5 z5
  rw [from_str]
  rw [splitOnColon_pair _ _ _ c0 d0, splitOnColon_pair _ _ _ c1 d1,
    splitOnColon_pair _ _ _ c2 d2, splitOnColon_pair _ _ _ c3 d3,
    splitOnColon_pair _ _ _ c4 d4, splitOnColon_pair_end _ _ c5 d5]
  rw [from_str_go_step _ _ (by omega) q0.1, from_str_go_step _ _ (by omega) q1.1,
    from_str_go_step _ _ (by omega) q2.1, from_str_go_step _ _ (by omega) q3.1,
    from_str_go_step _ _ (by omega) q4.1, from_str_go_step _ _ (by omega) q5.1]
  rw [q0.2, q1.2, q2.2, q3.2, q4.2, q5.2]
  simp [from_str_go]

theorem byteHex_pair {v w : Nat} (_hv : v < 16) (hw : w < 16) :
    byteHex (16 * v + w) = [hexDigitChar v, hexDigitChar w] := by
  have h1 : (16 * v + w) / 16 = v := by omega
  have h2 : (16 * v + w) % 16 = w := by omega
  rw [byteHex, h1, h2]

/-- **C9.** Every valid lowercase hardware-address text — six
colon-separated groups of two lowercase hex digits, i.e.
`[hx n0, hx n1, ':', …]` for digit values `n i < 16` — parses to the byte
values it spells, `Display` reproduces exactly that text (lowercase,
zero-padded, colon-separated: `format(parse(text)) = text`), and the
uppercased text parses to the same value. -/
theorem C9_display_roundtrip
    (n0 n1 n2 n3 n4 n5 n6 n7 n8 n9 n10 n11 : Nat)
    (h0 : n0 < 16) (h1 : n1 < 16) (h2 : n2 < 16) (h3 : n3 < 16)
    (h4 : n4 < 16) (h5 : n5 < 16) (h6 : n6 < 16) (h7 : n7 < 16)
    (h8 : n8 < 16) (h9 : n9 < 16) (h10 : n10 < 16) (h11 : n11 < 16) :
    from_str [hexDigitChar n0, hexDigitChar n1, ':', hexDigitChar n2, hexDigitChar n3, ':',
        hexDigitChar n4, hexDigitChar n5, ':', hexDigitChar n6, hexDigitChar n7, ':',
        hexDigitChar n8, hexDigitChar n9, ':', hexDigitChar n10, hexDigitChar n11]
      = Except.ok ⟨16 * n0 + n1, 16 * n2 + n3, 16 * n4 + n5,
          16 * n6 + n7, 16 * n8 + n9, 16 * n10 + n11⟩
    ∧ macDisplay ⟨16 * n0 + n1, 16 * n2 + n3, 16 * n4 + n5,
          16 * n6 + n7, 16 * n8 + n9, 16 * n10 + n11⟩
      = [hexDigitChar n0, hexDigitChar n1, ':', hexDigitChar n2, hexDigitChar n3, ':',
        hexDigitChar n4, hexDigitChar n5, ':', hexDigitChar n6, hexDigitChar n7, ':',
        hexDigitChar n8, hexDigitChar n9, ':', hexDigitChar n10, hexDigitChar n11]
    ∧ from_str (List.map upChar
        [hexDigitChar n0, hexDigitChar n1, ':', hexDigitChar n2, hexDigitChar n3, ':',
        hexDigitChar n4, hexDigitChar n5, ':', hexDigitChar n6, hexDigitChar n7, ':',
        hexDigitChar n8, hexDigitChar n9, ':', hexDigitChar n10, hexDigitChar n11])
      = Except.ok ⟨16 * n0 + n1, 16 * n2 + n3, 16 * n4 + n5,
          16 * n6 + n7, 16 * n8 + n9, 16 * n10 + n11⟩ := by
  have s0 := hexDigitChar_spec n0 h0
  have s1 := hexDigitChar_spec n1 h1
  have s2 := hexDigitChar_spec n2 h2
  have s3 := hexDigitChar_spec n3 h3
  have s4 := hexDigitChar_spec n4 h4
  have s5 := hexDigitChar_spec n5 h5
  have s6 := hexDigitChar_spec n6 h6
  have s7 := hexDigitChar_spec n7 h7
  have s8 := hexDigitChar_spec n8 h8
  have s9 := hexDigitChar_spec n9 h9
  have s10 := hexDigitChar_spec n10 h10
  have s11 := hexDigitChar_spec n11 h11
  refine ⟨?_, ?_, ?_⟩
  · exact from_str_six_pairs _ _ _ _ _ _ _ _ _ _ _ _ _ _ _ _ _ _ _ _ _ _ _ _
      ⟨s0.2.1, s1.2.1, s0.2.2.1, s0.1, s1.1, h0, h1⟩
      ⟨s2.2.1, s3.2.1, s2.2.2.1, s2.1, s3.1, h2, h3⟩
      ⟨s4.2.1, s5.2.1, s4.2.2.1, s4.1, s5.1, h4, h5⟩
      ⟨s6.2.1, s7.2.1, s6.2.2.1, s6.1, s7.1, h6, h7⟩
      ⟨s8.2.1, s9.2.1, s8.2.2.1, s8.1, s9.1, h8, h9⟩
      ⟨s10.2.1, s11.2.1, s10.2.2.1, s10.1, s11.1, h10, h11⟩
  · rw [macDisplay]
    rw [byteHex_pair h0 h1, byteHex_pair h2 h3, byteHex_pair h4 h5,
      byteHex_pair h6 h7, byteHex_pair h8 h9, byteHex_pair h10 h11]
    rfl
  · rw [show List.map upChar
        [hexDigitChar n0, hexDigitChar n1, ':', hexDigitChar n2, hexDigitChar n3, ':',
        hexDigitChar n4, hexDigitChar n5, ':', hexDigitChar n6, hexDigitChar n7, ':',
        hexDigitChar n8, hexDigitChar n9, ':', hexDigitChar n10, hexDigitChar n11]
      = [upChar (hexDigitChar n0), upChar (hexDigitChar n1), ':',
        upChar (hexDigitChar n2), upChar (hexDigitChar n3), ':',
        upChar (hexDigitChar n4), upChar (hexDigitChar n5), ':',
        upChar (hexDigitChar n6), upChar (hexDigitChar n7), ':',
        upChar (hexDigitChar n8), upChar (hexDigitChar n9), ':',
        upChar (hexDigitChar n10), upChar (hexDigitChar n11)]
      from by simp [upChar_colon]]
    exact from_str_six_pairs _ _ _ _ _ _ _ _ _ _ _ _ _ _ _ _ _ _ _ _ _ _ _ _
      ⟨s0.2.2.2.2.1, s1.2.2.2.2.1, s0.2.2.2.2.2, s0.2.2.2.1, s1.2.2.2.1, h0, h1⟩
      ⟨s2.2.2.2.2.1, s3.2.2.2.2.1, s2.2.2.2.2.2, s2.2.2.2.1, s3.2.2.2.1, h2, h3⟩
      ⟨s4.2.2.2.2.1, s5.2.2.2.2.1, s4.2.2.2.2.2, s4.2.2.2.1, s5.2.2.2.1, h4, h5⟩
      ⟨s6.2.2.2.2.1, s7.2.2.2.2.1, s6.2.2.2.2.2, s6.2.2.2.1, s7.2.2.2.1, h6, h7⟩
      ⟨s8.2.2.2.2.1, s9.2.2.2.2.1, s8.2.2.2.2.2, s8.2.2.2.1, s9.2.2.2.1, h8, h9⟩
      ⟨s10.2.2.2.2.1, s11.2.2.2.2.1, s10.2.2.2.2.2, s10.2.2.2.1, s11.2.2.2.1, h10, h11⟩

/-- **C9 witness.** The round trip at the digits of `"12:34:56:78:09:ab"`. -/
theorem C9_display_witness :
    from_str [hexDigitChar 1, hexDigitChar 2, ':', hexDigitChar 3, hexDigitChar 4, ':',
        hexDigitChar 5, hexDigitChar 6, ':', hexDigitChar 7, hexDigitChar 8, ':',
        hexDigitChar 0, hexDigitChar 9, ':', hexDigitChar 10, hexDigitChar 11]
      = Except.ok ⟨16 * 1 + 2, 16 * 3 + 4, 16 * 5 + 6, 16 * 7 + 8, 16 * 0 + 9, 16 * 10 + 11⟩
    ∧ macDisplay ⟨16 * 1 + 2, 16 * 3 + 4, 16 * 5 + 6, 16 * 7 + 8, 16 * 0 + 9, 16 * 10 + 11⟩
      = [hexDigitChar 1, hexDigitChar 2, ':', hexDigitChar 3, hexDigitChar 4, ':',
        hexDigitChar 5, hexDigitChar 6, ':', hexDigitChar 7, hexDigitChar 8, ':',
        hexDigitChar 0, hexDigitChar 9, ':', hexDigitChar 10, hexDigitChar 11]
    ∧ from_str (List.map upChar
        [hexDigitChar 1, hexDigitChar 2, ':', hexDigitChar 3, hexDigitChar 4, ':',
        hexDigitChar 5, hexDigitChar 6, ':', hexDigitChar 7, hexDigitChar 8, ':',
        hexDigitChar 0, hexDigitChar 9, ':', hexDigitChar 10, hexDigitChar 11])
      = Except.ok ⟨16 * 1 + 2, 16 * 3 + 4, 16 * 5 + 6, 16 * 7 + 8, 16 * 0 + 9, 16 * 10 + 11⟩ :=
  C9_display_roundtrip 1 2 3 4 5 6 7 8 0 9 10 11
    (by decide) (by decide) (by decide) (by decide) (by decide) (by decide)
    (by decide) (by decide) (by decide) (by decide) (by decide) (by decide)

end PnetUtil
